import Mathlib

/-!
Verification of the matching-and-expansion engine of the regex-rename
batch file-renaming utility (src/regex_rename/rename.py).

Python strings are modelled as lists of characters.  Python str.replace
(leftmost, non-overlapping, replace-all) is modelled by replaceAll below;
str.lower / str.upper are modelled character-wise with Char.toLower /
Char.toUpper, which agree with Python on ASCII text (all text appearing
in the verified claims is ASCII).  The Python re module is an external
collaborator of rename.py; its semantics is modelled where rename.py
relies on it (see RegexSem, re_fullmatch, re_search, parseTemplate).
-/

/-- A Python string, modelled as a list of characters. -/
abbrev PyStr := List Char

/-- Convenience: turn a Lean string literal into a modelled Python string. -/
def pstr (s : String) : PyStr := s.data

/-- Substring test: containsSub pat s models Python (pat in s). -/
def containsSub (pat : PyStr) : PyStr → Bool
  | [] => pat.isPrefixOf []
  | c :: cs => pat.isPrefixOf (c :: cs) || containsSub pat cs

/-- Fuel-driven worker for replaceAll.  The fuel starts at the length of the
string; every step consumes at least one character, so the fuel never runs
out on the initial call. -/
def replaceAllAux (pat rep : List Char) : Nat → List Char → List Char
  | _, [] => []
  | 0, s => s
  | fuel + 1, c :: cs =>
    if pat.isPrefixOf (c :: cs) then
      rep ++ replaceAllAux pat rep fuel (cs.drop (pat.length - 1))
    else
      c :: replaceAllAux pat rep fuel cs

/-- Python str.replace: replace every occurrence of pat in s by rep,
scanning left to right, non-overlapping.  (Python replaces nothing useful
for an empty pattern in the call sites modelled here; all patterns passed
by rename.py are nonempty.) -/
def replaceAll (s pat rep : List Char) : List Char :=
  if pat = [] then s else replaceAllAux pat rep s.length s

/-- Python str.lower, character-wise; agrees with Python on ASCII. -/
def pyLower (s : PyStr) : PyStr := s.map Char.toLower

/-- Python str.upper, character-wise; agrees with Python on ASCII. -/
def pyUpper (s : PyStr) : PyStr := s.map Char.toUpper

/-- Decimal digits of a natural number, as characters. -/
def natStr (n : Nat) : PyStr := (Nat.repr n).data

/-- The plain back-reference text for group index i: the Python f-string
f-backslash-i used by expand_replacement. -/
def backref (i : Nat) : PyStr := '\\' :: natStr i

/-- The lower-case directive form for group index i (backslash L backslash i). -/
def dirL (i : Nat) : PyStr := '\\' :: 'L' :: '\\' :: natStr i

/-- The upper-case directive form for group index i (backslash U backslash i). -/
def dirU (i : Nat) : PyStr := '\\' :: 'U' :: '\\' :: natStr i

/-- The group dictionary built by match_filename from position k onward:
models the Python dict comprehension over enumerate(re_match.groups()),
which maps index+1 to the group value in ascending key order. -/
def mkGroupDictFrom (k : Nat) : List (Option PyStr) → List (Nat × Option PyStr)
  | [] => []
  | g :: gs => (k, g) :: mkGroupDictFrom (k + 1) gs

/-- The group dictionary of match_filename: 1-based indices paired with the
captured group values, in ascending key order (Python dicts iterate in
insertion order). -/
def mkGroupDict (gs : List (Option PyStr)) : List (Nat × Option PyStr) :=
  mkGroupDictFrom 1 gs

/-- One iteration of the expansion loop of expand_replacement, for the
dictionary entry (index, g): the directive-form replacements (guarded by a
substring test on the current string), then the plain back-reference
replacement.  A missing (None) group is treated as the empty string. -/
def expandStep (nm : PyStr) (index : Nat) (g : Option PyStr) : PyStr :=
  let group := g.getD []
  let n1 := if containsSub (pstr "\\L") nm then replaceAll nm (dirL index) (pyLower group) else nm
  let n2 := if containsSub (pstr "\\U") n1 then replaceAll n1 (dirU index) (pyUpper group) else n1
  replaceAll n2 (backref index) group

/-- expand_replacement from rename.py: fold the expansion loop over the
group dictionary entries in order. -/
def expand_replacement (replacement_pattern : PyStr)
    (group_dict : List (Nat × Option PyStr)) : PyStr :=
  group_dict.foldl (fun nm p => expandStep nm p.1 p.2) replacement_pattern

/-- Python str.isnumeric, modelled for the text appearing in this
development: nonempty and every character a decimal digit.  This is exact
on ASCII text; Python additionally accepts further Unicode numeric
characters (superscripts, vulgar fractions, ...), so theorems about
non-numeric text quantify over ASCII strings only. -/
def pyIsNumeric (s : PyStr) : Bool := !s.isEmpty && s.all Char.isDigit

/-- Python str.zfill as used by match_filename: left-pad with zeros up to
width.  (Python zfill treats a leading sign specially, but zfill is only
reached for isnumeric text, which has no sign.) -/
def pyZfill (width : Nat) (s : PyStr) : PyStr :=
  if s.length < width then List.replicate (width - s.length) '0' ++ s else s

/-- The padding loop of match_filename (rename.py lines 91-94): for every
dictionary entry whose value is a string and isnumeric, replace it by its
zfill; other entries are untouched.  Keys and order are preserved. -/
def applyPadding (padding : Nat) (group_dict : List (Nat × Option PyStr)) :
    List (Nat × Option PyStr) :=
  group_dict.map fun p =>
    match p.2 with
    | some g => if pyIsNumeric g then (p.1, some (pyZfill padding g)) else p
    | none => p

/-- Errors raised by the modelled code: re.error raised while parsing a
replacement template (validate_replacement), the RuntimeError of
find_duplicates carrying the colliding target names, and the RuntimeError
of bulk_rename when renaming is requested without a replacement pattern. -/
inductive PyErr where
  | reError (msg : String)
  | duplicateTargets (names : List (Option PyStr))
  | missingReplacement
deriving DecidableEq

deriving instance DecidableEq for Except

/-- Data of a Python re.Match as used by rename.py: span of the match, the
captured groups in pattern order (None for a group that did not
participate), and the pattern's map from group names to group numbers
(used only by the template parser for named references). -/
structure ReMatch where
  start : Nat
  stop : Nat
  groups : List (Option PyStr)
  names : List (PyStr × Nat)
deriving DecidableEq

/-- Abstract semantics of a compiled regular expression, the external re
collaborator of rename.py.  For every subject string and start position,
candidates lists the matches the engine can produce from that position, in
engine preference order, as pairs of end position and captured groups. -/
structure RegexSem where
  names : List (PyStr × Nat)
  candidates : PyStr → Nat → List (Nat × List (Option PyStr))

/-- Python re.fullmatch: succeeds exactly when the pattern can match the
entire subject; the groups are those of the engine-preferred whole-string
match. -/
def re_fullmatch (R : RegexSem) (s : PyStr) : Option ReMatch :=
  match (R.candidates s 0).filter (fun m => m.1 == s.length) with
  | [] => none
  | m :: _ => some ⟨0, m.1, m.2, R.names⟩

/-- Worker for re.search: try each start position in turn. -/
def searchFrom (R : RegexSem) (s : PyStr) : Nat → Nat → Option ReMatch
  | 0, _ => none
  | fuel + 1, i =>
    match R.candidates s i with
    | m :: _ => some ⟨i, m.1, m.2, R.names⟩
    | [] => searchFrom R s fuel (i + 1)

/-- Python re.search: the match at the leftmost start position (0 up to and
including the length of the subject) where the pattern matches. -/
def re_search (R : RegexSem) (s : PyStr) : Option ReMatch :=
  searchFrom R s (s.length + 1) 0

/-- match_regex_string from rename.py: fullmatch when full is set,
unanchored search otherwise. -/
def match_regex_string (R : RegexSem) (filename : PyStr) (full : Bool) :
    Option ReMatch :=
  if full then re_fullmatch R filename else re_search R filename

/-- Items of a parsed replacement template: literal characters and group
references. -/
inductive TItem where
  | lit (c : Char)
  | group (n : Nat)
deriving DecidableEq

/-- Octal digit test, as in the CPython template parser. -/
def isOct (c : Char) : Bool := '0' ≤ c && c ≤ '7'

/-- Numeric value of a decimal digit character. -/
def digitVal (c : Char) : Nat := c.toNat - '0'.toNat

/-- Decimal value of a digit string. -/
def digitsToNat (s : List Char) : Nat := s.foldl (fun a c => a * 10 + digitVal c) 0

/-- The known template escapes of the CPython parser (sre ESCAPES table). -/
def escMap (c : Char) : Option Char :=
  if c = 'a' then some (Char.ofNat 7)
  else if c = 'b' then some (Char.ofNat 8)
  else if c = 'f' then some (Char.ofNat 12)
  else if c = 'n' then some (Char.ofNat 10)
  else if c = 'r' then some (Char.ofNat 13)
  else if c = 't' then some (Char.ofNat 9)
  else if c = 'v' then some (Char.ofNat 11)
  else if c = '\\' then some '\\'
  else none

/-- CPython addgroup: a group reference is rejected when its number exceeds
the number of groups of the pattern. -/
def addgroup (G n : Nat) (rest : List Char) : Except PyErr (List TItem × List Char) :=
  if G < n then .error (.reError "invalid group reference")
  else .ok ([.group n], rest)

/-- Split a character list at the first closing angle bracket. -/
def splitAtGt : List Char → Option (List Char × List Char)
  | [] => none
  | c :: cs =>
    if c = '>' then some ([], cs)
    else (splitAtGt cs).map fun p => (c :: p.1, p.2)

/-- Identifier test for group names (ASCII, as used by the patterns of this
program). -/
def isIdentName (s : List Char) : Bool :=
  match s with
  | [] => false
  | c :: cs => (c.isAlpha || c = '_') && cs.all (fun d => d.isAlphanum || d = '_')

/-- Look up a group name in the pattern's name table. -/
def lookupName (names : List (PyStr × Nat)) (nm : PyStr) : Option Nat :=
  (names.find? fun p => p.1 == nm).map (·.2)

/-- CPython parse of a backslash-g group reference in a template. -/
def parseGroupName (G : Nat) (names : List (PyStr × Nat)) :
    List Char → Except PyErr (List TItem × List Char)
  | '<' :: rest =>
    match splitAtGt rest with
    | none => .error (.reError "missing >, unterminated name")
    | some (nm, rest2) =>
      if nm = [] then .error (.reError "missing group name")
      else if nm.all Char.isDigit then addgroup G (digitsToNat nm) rest2
      else if isIdentName nm then
        match lookupName names nm with
        | some n => addgroup G n rest2
        | none => .error (.reError "unknown group name")
      else .error (.reError "bad character in group name")
  | _ => .error (.reError "missing <")

/-- CPython parse of the text following a backslash in a replacement
template: group references (with the 3-octal-digit escape rule), the octal
escape after 0, backslash-g references, the known letter escapes, an error
for any other ASCII letter, and a literal backslash plus character
otherwise. -/
def parseEscape (G : Nat) (names : List (PyStr × Nat)) :
    List Char → Except PyErr (List TItem × List Char)
  | [] => .error (.reError "bad escape (end of pattern)")
  | c :: rest =>
    if c = 'g' then parseGroupName G names rest
    else if c = '0' then
      match rest with
      | d2 :: rest2 =>
        if isOct d2 then
          match rest2 with
          | d3 :: rest3 =>
            if isOct d3 then .ok ([.lit (Char.ofNat (digitVal d2 * 8 + digitVal d3))], rest3)
            else .ok ([.lit (Char.ofNat (digitVal d2))], rest2)
          | [] => .ok ([.lit (Char.ofNat (digitVal d2))], rest2)
        else .ok ([.lit (Char.ofNat 0)], rest)
      | [] => .ok ([.lit (Char.ofNat 0)], rest)
    else if c.isDigit then
      match rest with
      | d2 :: rest2 =>
        if d2.isDigit then
          match rest2 with
          | d3 :: rest3 =>
            if isOct c && isOct d2 && isOct d3 then
              if 255 < digitVal c * 64 + digitVal d2 * 8 + digitVal d3 then
                .error (.reError "octal escape value outside of range 0-0o377")
              else .ok ([.lit (Char.ofNat (digitVal c * 64 + digitVal d2 * 8 + digitVal d3))], rest3)
            else addgroup G (digitVal c * 10 + digitVal d2) rest2
          | [] => addgroup G (digitVal c * 10 + digitVal d2) []
        else addgroup G (digitVal c) rest
      | [] => addgroup G (digitVal c) []
    else
      match escMap c with
      | some e => .ok ([.lit e], rest)
      | none =>
        if c.isAlpha then .error (.reError "bad escape")
        else .ok ([.lit '\\', .lit c], rest)

/-- Fuel-driven main loop of the CPython template parser: literal
characters are copied, a backslash hands over to parseEscape.  The fuel
starts at the length of the template; every step consumes at least one
character. -/
def parseTemplateAux (G : Nat) (names : List (PyStr × Nat)) :
    Nat → List Char → Except PyErr (List TItem)
  | _, [] => .ok []
  | 0, _ :: _ => .error (.reError "template parse: out of fuel")
  | fuel + 1, c :: rest =>
    if c = '\\' then
      match parseEscape G names rest with
      | .error e => .error e
      | .ok (items, rest2) =>
        match parseTemplateAux G names fuel rest2 with
        | .error e => .error e
        | .ok tail => .ok (items ++ tail)
    else
      match parseTemplateAux G names fuel rest with
      | .error e => .error e
      | .ok tail => .ok (.lit c :: tail)

/-- CPython parse of a replacement template against a pattern with G groups
and the given group-name table; models the parsing (and validity checking)
performed by re.Match.expand. -/
def parseTemplate (G : Nat) (names : List (PyStr × Nat)) (s : List Char) :
    Except PyErr (List TItem) :=
  parseTemplateAux G names s.length s

/-- The simplified template of validate_replacement: the template with
every literal backslash-L and backslash-U marker stripped. -/
def simplifiedTemplate (replacement_pattern : PyStr) : PyStr :=
  replaceAll (replaceAll replacement_pattern (pstr "\\L") []) (pstr "\\U") []

/-- validate_replacement from rename.py: strip the case-directive markers,
then run re.Match.expand on the result.  Since Python 3.5, expansion
substitutes the empty string for a group that did not participate, so
expand fails exactly when template parsing fails. -/
def validate_replacement (re_match : ReMatch) (replacement_pattern : PyStr) :
    Except PyErr Unit :=
  match parseTemplate re_match.groups.length re_match.names
      (simplifiedTemplate replacement_pattern) with
  | .error e => .error e
  | .ok _ => .ok ()

/-- The group references collected by parsing the simplified template (the
back-references the template uses, in the sense of the template parser). -/
def parsedRefs (re_match : ReMatch) (replacement_pattern : PyStr) : List Nat :=
  match parseTemplate re_match.groups.length re_match.names
      (simplifiedTemplate replacement_pattern) with
  | .error _ => []
  | .ok items => items.filterMap fun it =>
      match it with
      | .group n => some n
      | .lit _ => none

/-- The Match record of regex_rename.match as constructed by rename.py:
the source name, the optional computed target name, the (post-padding)
group dictionary, and the underlying re.Match data. -/
structure Match where
  name_from : PyStr
  name_to : Option PyStr
  groups : List (Nat × Option PyStr)
  re_match : ReMatch
deriving DecidableEq

/-- Python truthiness of the optional replacement pattern: None and the
empty string are falsy. -/
def truthy : Option PyStr → Bool
  | none => false
  | some s => !s.isEmpty

/-- match_filename from rename.py: match the pattern against the filename,
build the 1-based group dictionary, apply padding when requested, and,
when a (truthy) replacement pattern is present, validate it (which can
raise) and expand it into the target name. -/
def match_filename (R : RegexSem) (filename : PyStr)
    (replacement_pattern : Option PyStr) (full : Bool) (padding : Nat) :
    Except PyErr (Option Match) :=
  match match_regex_string R filename full with
  | none => .ok none
  | some re_m =>
    let gd0 := mkGroupDict re_m.groups
    let gd := if padding ≠ 0 then applyPadding padding gd0 else gd0
    if !truthy replacement_pattern then
      .ok (some ⟨filename, none, gd, re_m⟩)
    else
      let rp := replacement_pattern.getD []
      match validate_replacement re_m rp with
      | .error e => .error e
      | .ok () => .ok (some ⟨filename, some (expand_replacement rp gd), gd, re_m⟩)

/-- Lexicographic comparison of Python strings by code point (Python str
less-than). -/
def strLt : PyStr → PyStr → Bool
  | [], [] => false
  | [], _ :: _ => true
  | _ :: _, [] => false
  | a :: as, b :: bs => if a = b then strLt as bs else decide (a < b)

/-- Insert into a lexicographically sorted list of strings. -/
def insertSorted (x : PyStr) : List PyStr → List PyStr
  | [] => [x]
  | y :: ys => if strLt y x then y :: insertSorted x ys else x :: y :: ys

/-- Python sorted() on strings: the lexicographically sorted rearrangement.
Insertion sort produces the same list as Python sort does, since for
strings the sorted permutation is unique. -/
def sortStrs : List PyStr → List PyStr
  | [] => []
  | x :: xs => insertSorted x (sortStrs xs)

/-- The list comprehension of match_files: run match_filename on each
filename in order; the first raised error aborts the whole comprehension. -/
def matchEach (R : RegexSem) (replacement_pattern : Option PyStr)
    (full : Bool) (padding : Nat) : List PyStr → Except PyErr (List (Option Match))
  | [] => .ok []
  | fn :: rest =>
    match match_filename R fn replacement_pattern full padding with
    | .error e => .error e
    | .ok m =>
      match matchEach R replacement_pattern full padding rest with
      | .error e => .error e
      | .ok ms => .ok (m :: ms)

/-- match_files from rename.py, over an externally supplied file list (the
list_files collaborator): sort the filenames, match each, and keep the
successful matches in sorted order. -/
def match_files (R : RegexSem) (files : List PyStr)
    (replacement_pattern : Option PyStr) (full : Bool) (padding : Nat) :
    Except PyErr (List Match) :=
  match matchEach R replacement_pattern full padding (sortStrs files) with
  | .error e => .error e
  | .ok ms => .ok (ms.filterMap id)

/-- The duplicate target names of a match list: every target that occurs
more than once, listed once each (Python builds the set of such names; the
model lists them in a deterministic order, which is all the RuntimeError
message exposes up to ordering). -/
def dupTargets (ms : List Match) : List (Option PyStr) :=
  let names := ms.map (·.name_to)
  (names.filter fun n => decide (1 < names.count n)).dedup

/-- find_duplicates from rename.py: raise a RuntimeError naming the
duplicated replacement filenames when any target name occurs twice. -/
def find_duplicates (ms : List Match) : Except PyErr Unit :=
  if dupTargets ms = [] then .ok ()
  else .error (.duplicateTargets (dupTargets ms))

/-- rename_matches from rename.py, as the list of (source, target) renames
it performs, in order.  (Directory creation is filesystem glue outside the
verified core.) -/
def rename_matches (ms : List Match) : List (PyStr × PyStr) :=
  ms.map fun m => (m.name_from, m.name_to.getD [])

/-- bulk_rename from rename.py.  The result is the Python return value (or
the raised error) paired with the list of renames actually performed:
match everything, check duplicates when a truthy replacement pattern is
present, then either just report (testing), rename (truthy replacement),
or raise the missing-replacement RuntimeError. -/
def bulk_rename (R : RegexSem) (files : List PyStr)
    (replacement_pattern : Option PyStr) (testing full : Bool) (padding : Nat) :
    Except PyErr (List Match) × List (PyStr × PyStr) :=
  match match_files R files replacement_pattern full padding with
  | .error e => (.error e, [])
  | .ok ms =>
    if truthy replacement_pattern then
      match find_duplicates ms with
      | .error e => (.error e, [])
      | .ok () =>
        if testing then (.ok ms, [])
        else (.ok ms, rename_matches ms)
    else
      if testing then (.ok ms, [])
      else (.error .missingReplacement, [])

/-- A concrete regular-expression semantics used to evaluate the theorems on
concrete inputs: one capture group capturing the whole subject, matching
only at position 0. -/
def trivialRegex : RegexSem :=
  ⟨[], fun s i => if i == 0 then [(s.length, [some s])] else []⟩

/-- A concrete semantics whose matches never span the whole subject: from
position 0 it matches everything but the last character (and nothing on
shorter subjects or other positions). -/
def properSubRegex : RegexSem :=
  ⟨[], fun s i => if i == 0 && decide (1 ≤ s.length) then [(s.length - 1, [])] else []⟩

/-- A concrete re.Match with two pattern groups where group 2 did not
participate in the match. -/
def nonPartMatch : ReMatch := ⟨0, 1, [some (pstr "a"), none], []⟩

/-- The match record produced by trivialRegex for the file a with
replacement template x. -/
def wMatchA : Match :=
  ⟨pstr "a", some (pstr "x"), [(1, some (pstr "a"))], ⟨0, 1, [some (pstr "a")], []⟩⟩

/-- The match record produced by trivialRegex for the file b with
replacement template x. -/
def wMatchB : Match :=
  ⟨pstr "b", some (pstr "x"), [(1, some (pstr "b"))], ⟨0, 1, [some (pstr "b")], []⟩⟩

/-- A concrete group dictionary exercising the padding cases: a short
numeric group, a non-numeric group, and an absent group. -/
def wPadDict : List (Nat × Option PyStr) :=
  [(1, some (pstr "7")), (2, some (pstr "abc")), (3, none)]

/-! Auxiliary predicates for the expansion proofs: absence of backslashes
and absence of adjacent backslashes. -/

/-- No backslash occurs in the string. -/
def noBS (s : PyStr) : Bool := s.all fun c => c != '\\'

/-- No two adjacent backslashes occur in the string. -/
def noAdjBS : List Char → Bool
  | [] => true
  | [_] => true
  | a :: b :: r => !(a == '\\' && b == '\\') && noAdjBS (b :: r)

theorem noBS_nil : noBS [] = true := rfl

theorem noBS_cons {c : Char} {cs : PyStr} :
    noBS (c :: cs) = ((c != '\\') && noBS cs) := rfl

theorem noBS_head {c : Char} {cs : PyStr} (h : noBS (c :: cs) = true) : c ≠ '\\' := by
  rw [noBS_cons, Bool.and_eq_true, bne_iff_ne] at h
  exact h.1

theorem noBS_tail {c : Char} {cs : PyStr} (h : noBS (c :: cs) = true) : noBS cs = true := by
  rw [noBS_cons, Bool.and_eq_true] at h
  exact h.2

theorem char_toLower_ne_bs {c : Char} (hc : c ≠ '\\') : Char.toLower c ≠ '\\' := by
  intro h
  apply hc
  simp only [Char.toLower] at h
  split at h
  · rename_i hn
    exfalso
    obtain ⟨h1, h2⟩ := hn
    set n := Char.toNat c with hdef
    interval_cases n <;> exact absurd h (by decide)
  · exact h

theorem char_toUpper_ne_bs {c : Char} (hc : c ≠ '\\') : Char.toUpper c ≠ '\\' := by
  intro h
  apply hc
  simp only [Char.toUpper] at h
  split at h
  · rename_i hn
    exfalso
    obtain ⟨h1, h2⟩ := hn
    set n := Char.toNat c with hdef
    interval_cases n <;> exact absurd h (by decide)
  · exact h

theorem noBS_pyLower {s : PyStr} (h : noBS s = true) : noBS (pyLower s) = true := by
  induction s with
  | nil => rfl
  | cons c cs ih =>
    have h1 := noBS_head h
    have h2 := noBS_tail h
    rw [pyLower, List.map_cons, noBS_cons, Bool.and_eq_true, bne_iff_ne]
    exact ⟨char_toLower_ne_bs h1, ih h2⟩

theorem noBS_pyUpper {s : PyStr} (h : noBS s = true) : noBS (pyUpper s) = true := by
  induction s with
  | nil => rfl
  | cons c cs ih =>
    have h1 := noBS_head h
    have h2 := noBS_tail h
    rw [pyUpper, List.map_cons, noBS_cons, Bool.and_eq_true, bne_iff_ne]
    exact ⟨char_toUpper_ne_bs h1, ih h2⟩

theorem noAdjBS_tail {c : Char} {cs : List Char} (h : noAdjBS (c :: cs) = true) :
    noAdjBS cs = true := by
  cases cs with
  | nil => rfl
  | cons b r =>
    rw [noAdjBS, Bool.and_eq_true] at h
    exact h.2

theorem noAdjBS_head {c : Char} {cs : List Char} (h : noAdjBS (c :: cs) = true)
    (hc : c = '\\') : cs.head? ≠ some '\\' := by
  cases cs with
  | nil => simp
  | cons b r =>
    rw [noAdjBS, Bool.and_eq_true] at h
    intro hb
    simp only [List.head?_cons, Option.some.injEq] at hb
    subst hc hb
    simp at h

theorem noAdjBS_cons {c : Char} {cs : List Char} (h : noAdjBS cs = true)
    (hc : c = '\\' → cs.head? ≠ some '\\') : noAdjBS (c :: cs) = true := by
  cases cs with
  | nil => rfl
  | cons b r =>
    rw [noAdjBS, Bool.and_eq_true]
    refine ⟨?_, h⟩
    by_cases hcb : c = '\\'
    · have := hc hcb
      simp only [List.head?_cons, ne_eq, Option.some.injEq] at this
      simp [hcb, this]
    · simp [hcb]

theorem noAdjBS_drop {s : List Char} (h : noAdjBS s = true) (k : Nat) :
    noAdjBS (s.drop k) = true := by
  induction s generalizing k with
  | nil => simp [noAdjBS]
  | cons c cs ih =>
    cases k with
    | zero => exact h
    | succ k => exact ih (noAdjBS_tail h) k

theorem containsSub_cons {q : PyStr} {c : Char} {cs : PyStr} :
    containsSub q (c :: cs) = (q.isPrefixOf (c :: cs) || containsSub q cs) := rfl

theorem containsSub_tail_false {q : PyStr} {c : Char} {cs : PyStr}
    (h : containsSub q (c :: cs) = false) : containsSub q cs = false := by
  rw [containsSub_cons, Bool.or_eq_false_iff] at h
  exact h.2

theorem containsSub_drop_false {q : PyStr} {s : PyStr}
    (h : containsSub q s = false) (k : Nat) : containsSub q (s.drop k) = false := by
  induction s generalizing k with
  | nil => simpa using h
  | cons c cs ih =>
    cases k with
    | zero => exact h
    | succ k => exact ih (containsSub_tail_false h) k

theorem bs_isPrefixOf_cons {t : PyStr} {c : Char} {cs : PyStr} :
    ('\\' :: t).isPrefixOf (c :: cs) = ((c == '\\') && t.isPrefixOf cs) := by
  rw [List.isPrefixOf_cons₂]
  rw [Bool.beq_comm]

theorem noBS_contains {t : PyStr} {s : PyStr} (h : noBS s = true) :
    containsSub ('\\' :: t) s = false := by
  induction s with
  | nil => rfl
  | cons c cs ih =>
    rw [containsSub_cons, Bool.or_eq_false_iff, bs_isPrefixOf_cons]
    refine ⟨?_, ih (noBS_tail h)⟩
    have := noBS_head h
    simp [this]

theorem contains_bs_append {t : PyStr} {v x : PyStr} (hv : noBS v = true) :
    containsSub ('\\' :: t) (v ++ x) = containsSub ('\\' :: t) x := by
  induction v with
  | nil => rfl
  | cons a v ih =>
    have ha := noBS_head hv
    rw [List.cons_append, containsSub_cons, bs_isPrefixOf_cons, ih (noBS_tail hv)]
    simp [ha]

theorem head?_replaceAllAux {pat v : List Char} {fuel : Nat} {s : List Char}
    (h : pat.isPrefixOf s = false) :
    (replaceAllAux pat v fuel s).head? = s.head? := by
  cases s with
  | nil => cases fuel <;> rfl
  | cons c cs =>
    cases fuel with
    | zero => rfl
    | succ fuel =>
      rw [replaceAllAux, if_neg (by simp [h])]
      rfl

theorem noAdjBS_append {v x : List Char} (hv : noBS v = true) (hx : noAdjBS x = true) :
    noAdjBS (v ++ x) = true := by
  induction v with
  | nil => simpa
  | cons a v ih =>
    have ha := noBS_head hv
    rw [List.cons_append]
    exact noAdjBS_cons (ih (noBS_tail hv)) fun hc => absurd hc ha

theorem isPrefixOf_singleton_head {d : Char} {xs : List Char} :
    [d].isPrefixOf xs = (xs.head? == some d) := by
  cases xs with
  | nil => rfl
  | cons b bs =>
    rw [List.isPrefixOf_cons₂]
    simp [Bool.beq_comm]

theorem bs_prefixOf_false {t cs : List Char} (h : cs.head? ≠ some '\\') :
    ('\\' :: t).isPrefixOf cs = false := by
  cases cs with
  | nil => rfl
  | cons b bs =>
    rw [bs_isPrefixOf_cons]
    have hb : b ≠ '\\' := by simpa using h
    simp [hb]

theorem replaceAllAux_noAdjBS {t v : List Char} (hv : noBS v = true) :
    ∀ fuel s, noAdjBS s = true → noAdjBS (replaceAllAux ('\\' :: t) v fuel s) = true := by
  intro fuel
  induction fuel with
  | zero =>
    intro s hs
    cases s <;> simpa [replaceAllAux] using hs
  | succ fuel ih =>
    intro s hs
    cases s with
    | nil => rfl
    | cons c cs =>
      rw [replaceAllAux]
      by_cases hp : ('\\' :: t).isPrefixOf (c :: cs) = true
      · rw [if_pos hp]
        exact noAdjBS_append hv (ih _ (noAdjBS_drop (noAdjBS_tail hs) _))
      · rw [if_neg hp]
        apply noAdjBS_cons (ih cs (noAdjBS_tail hs))
        intro hc
        have hcs : cs.head? ≠ some '\\' := noAdjBS_head hs hc
        rw [head?_replaceAllAux (bs_prefixOf_false hcs)]
        exact hcs

theorem replaceAllAux_contains_false {t v : List Char} {d : Char} (hv : noBS v = true) :
    ∀ fuel s, noAdjBS s = true → containsSub ['\\', d] s = false →
      containsSub ['\\', d] (replaceAllAux ('\\' :: t) v fuel s) = false := by
  intro fuel
  induction fuel with
  | zero =>
    intro s hs hc
    cases s <;> simpa [replaceAllAux] using hc
  | succ fuel ih =>
    intro s hs hc
    cases s with
    | nil => rfl
    | cons c cs =>
      have hc2 := containsSub_tail_false hc
      rw [containsSub_cons, Bool.or_eq_false_iff] at hc
      rw [replaceAllAux]
      by_cases hp : ('\\' :: t).isPrefixOf (c :: cs) = true
      · rw [if_pos hp]
        rw [show ('\\' :: t).length - 1 = t.length from rfl]
        rw [show (['\\', d] : List Char) = '\\' :: [d] from rfl, contains_bs_append hv]
        exact ih _ (noAdjBS_drop (noAdjBS_tail hs) _) (containsSub_drop_false hc2 _)
      · rw [if_neg hp]
        rw [containsSub_cons, Bool.or_eq_false_iff]
        refine ⟨?_, ih cs (noAdjBS_tail hs) hc2⟩
        rw [show (['\\', d] : List Char) = '\\' :: [d] from rfl, bs_isPrefixOf_cons]
        by_cases hcb : c = '\\'
        · have hcs : cs.head? ≠ some '\\' := noAdjBS_head hs hcb
          have h1 := hc.1
          rw [show (['\\', d] : List Char) = '\\' :: [d] from rfl, bs_isPrefixOf_cons] at h1
          simp only [hcb, beq_self_eq_true, Bool.true_and] at h1 ⊢
          rw [isPrefixOf_singleton_head] at h1 ⊢
          rwa [head?_replaceAllAux (bs_prefixOf_false hcs)]
        · simp [hcb]

theorem replaceAllAux_removes {d : Char} {v : List Char} (hv : noBS v = true) :
    ∀ fuel s, noAdjBS s = true → s.length ≤ fuel →
      containsSub ['\\', d] (replaceAllAux ['\\', d] v fuel s) = false := by
  intro fuel
  induction fuel with
  | zero =>
    intro s hs hl
    have : s = [] := List.length_eq_zero.mp (Nat.le_zero.mp hl)
    subst this
    rfl
  | succ fuel ih =>
    intro s hs hl
    cases s with
    | nil => rfl
    | cons c cs =>
      rw [replaceAllAux]
      by_cases hp : (['\\', d] : List Char).isPrefixOf (c :: cs) = true
      · rw [if_pos hp]
        rw [show (['\\', d] : List Char) = '\\' :: [d] from rfl, contains_bs_append hv]
        apply ih _ (noAdjBS_drop (noAdjBS_tail hs) _)
        have : (cs.drop (['\\', d].length - 1)).length ≤ cs.length := by
          rw [List.length_drop]
          omega
        have hcs : cs.length ≤ fuel := by
          simpa [List.length_cons, Nat.succ_le_succ_iff] using hl
        omega
      · rw [if_neg hp]
        rw [containsSub_cons, Bool.or_eq_false_iff]
        have hl2 : cs.length ≤ fuel := by
          simpa [List.length_cons, Nat.succ_le_succ_iff] using hl
        refine ⟨?_, ih cs (noAdjBS_tail hs) hl2⟩
        rw [show (['\\', d] : List Char) = '\\' :: [d] from rfl, bs_isPrefixOf_cons]
        by_cases hcb : c = '\\'
        · have hcs : cs.head? ≠ some '\\' := noAdjBS_head hs hcb
          have h1 : (['\\', d] : List Char).isPrefixOf (c :: cs) = false :=
            Bool.not_eq_true _ |>.mp hp
          rw [show (['\\', d] : List Char) = '\\' :: [d] from rfl, bs_isPrefixOf_cons] at h1
          simp only [hcb, beq_self_eq_true, Bool.true_and] at h1 ⊢
          rw [isPrefixOf_singleton_head] at h1 ⊢
          rwa [head?_replaceAllAux (bs_prefixOf_false hcs)]
        · simp [hcb]

theorem replaceAll_noAdjBS {s t v : List Char} (hs : noAdjBS s = true)
    (hv : noBS v = true) : noAdjBS (replaceAll s ('\\' :: t) v) = true := by
  rw [replaceAll, if_neg (by simp)]
  exact replaceAllAux_noAdjBS hv _ s hs

theorem replaceAll_contains_false {s t v : List Char} {d : Char}
    (hs : noAdjBS s = true) (hv : noBS v = true)
    (hc : containsSub ['\\', d] s = false) :
    containsSub ['\\', d] (replaceAll s ('\\' :: t) v) = false := by
  rw [replaceAll, if_neg (by simp)]
  exact replaceAllAux_contains_false hv _ s hs hc

theorem replaceAll_removes {s v : List Char} {d : Char}
    (hs : noAdjBS s = true) (hv : noBS v = true) :
    containsSub ['\\', d] (replaceAll s ['\\', d] v) = false := by
  rw [replaceAll, if_neg (by simp)]
  exact replaceAllAux_removes hv _ s hs (Nat.le_refl _)

theorem replaceAll_of_noBS {s : List Char} {t v : List Char} (hs : noBS s = true) :
    replaceAll s ('\\' :: t) v = s := by
  rw [replaceAll, if_neg (by simp)]
  generalize s.length = fuel
  induction fuel generalizing s with
  | zero => cases s <;> rfl
  | succ fuel ih =>
    cases s with
    | nil => rfl
    | cons c cs =>
      rw [replaceAllAux]
      have hcb := noBS_head hs
      rw [if_neg (by rw [bs_isPrefixOf_cons]; simp [hcb])]
      rw [ih (noBS_tail hs)]

theorem backref_eq_cons (i : Nat) : backref i = '\\' :: natStr i := rfl

theorem dirL_eq_cons (i : Nat) : dirL i = '\\' :: ('L' :: '\\' :: natStr i) := rfl

theorem dirU_eq_cons (i : Nat) : dirU i = '\\' :: ('U' :: '\\' :: natStr i) := rfl

theorem ite_replaceAll_noAdjBS {x t v : List Char} {b : Prop} [Decidable b]
    (hx : noAdjBS x = true) (hv : noBS v = true) :
    noAdjBS (if b then replaceAll x ('\\' :: t) v else x) = true := by
  split
  · exact replaceAll_noAdjBS hx hv
  · exact hx

theorem ite_replaceAll_contains_false {x t v : List Char} {d : Char} {b : Prop}
    [Decidable b] (hx : noAdjBS x = true) (hv : noBS v = true)
    (hc : containsSub ['\\', d] x = false) :
    containsSub ['\\', d] (if b then replaceAll x ('\\' :: t) v else x) = false := by
  split
  · exact replaceAll_contains_false hx hv hc
  · exact hc

theorem expandStep_noAdjBS {nm : PyStr} {i : Nat} {g : Option PyStr}
    (hs : noAdjBS nm = true) (hg : noBS (g.getD []) = true) :
    noAdjBS (expandStep nm i g) = true := by
  simp only [expandStep, dirL_eq_cons, dirU_eq_cons, backref_eq_cons]
  exact replaceAll_noAdjBS
    (ite_replaceAll_noAdjBS
      (ite_replaceAll_noAdjBS hs (noBS_pyLower hg)) (noBS_pyUpper hg)) hg

theorem expandStep_contains_false {nm : PyStr} {i : Nat} {g : Option PyStr} {d : Char}
    (hs : noAdjBS nm = true) (hg : noBS (g.getD []) = true)
    (hc : containsSub ['\\', d] nm = false) :
    containsSub ['\\', d] (expandStep nm i g) = false := by
  simp only [expandStep, dirL_eq_cons, dirU_eq_cons, backref_eq_cons]
  exact replaceAll_contains_false
    (ite_replaceAll_noAdjBS
      (ite_replaceAll_noAdjBS hs (noBS_pyLower hg)) (noBS_pyUpper hg)) hg
    (ite_replaceAll_contains_false
      (ite_replaceAll_noAdjBS hs (noBS_pyLower hg)) (noBS_pyUpper hg)
      (ite_replaceAll_contains_false hs (noBS_pyLower hg) hc))

theorem expandStep_removes {nm : PyStr} {i : Nat} {g : Option PyStr} {d : Char}
    (hs : noAdjBS nm = true) (hg : noBS (g.getD []) = true)
    (hd : natStr i = [d]) :
    containsSub ['\\', d] (expandStep nm i g) = false := by
  simp only [expandStep, dirL_eq_cons, dirU_eq_cons, backref_eq_cons, hd]
  exact replaceAll_removes
    (ite_replaceAll_noAdjBS
      (ite_replaceAll_noAdjBS hs (noBS_pyLower hg)) (noBS_pyUpper hg)) hg

theorem expand_replacement_nil (nm : PyStr) : expand_replacement nm [] = nm := rfl

theorem expand_replacement_cons (nm : PyStr) (p : Nat × Option PyStr)
    (gd : List (Nat × Option PyStr)) :
    expand_replacement nm (p :: gd) = expand_replacement (expandStep nm p.1 p.2) gd := rfl

theorem expandFold_noAdjBS {gd : List (Nat × Option PyStr)} :
    ∀ {nm : PyStr}, noAdjBS nm = true →
    (∀ p ∈ gd, noBS (p.2.getD []) = true) →
    noAdjBS (expand_replacement nm gd) = true := by
  induction gd with
  | nil => intro nm h _; exact h
  | cons p gd ih =>
    intro nm h hv
    rw [expand_replacement_cons]
    exact ih (expandStep_noAdjBS h (hv p (List.mem_cons_self p gd)))
      fun q hq => hv q (List.mem_cons_of_mem p hq)

theorem expandFold_contains_false {gd : List (Nat × Option PyStr)} {d : Char} :
    ∀ {nm : PyStr}, noAdjBS nm = true →
    (∀ p ∈ gd, noBS (p.2.getD []) = true) →
    containsSub ['\\', d] nm = false →
    containsSub ['\\', d] (expand_replacement nm gd) = false := by
  induction gd with
  | nil => intro nm _ _ hc; exact hc
  | cons p gd ih =>
    intro nm h hv hc
    rw [expand_replacement_cons]
    exact ih (expandStep_noAdjBS h (hv p (List.mem_cons_self p gd)))
      (fun q hq => hv q (List.mem_cons_of_mem p hq))
      (expandStep_contains_false h (hv p (List.mem_cons_self p gd)) hc)

theorem expandFold_removes {gd : List (Nat × Option PyStr)} {d : Char} :
    ∀ {nm : PyStr}, noAdjBS nm = true →
    (∀ p ∈ gd, noBS (p.2.getD []) = true) →
    ∀ p ∈ gd, natStr p.1 = [d] →
    containsSub ['\\', d] (expand_replacement nm gd) = false := by
  induction gd with
  | nil => intro nm _ _ p hp _; exact absurd hp (List.not_mem_nil p)
  | cons q gd ih =>
    intro nm h hv p hp hd
    rw [expand_replacement_cons]
    have hq := hv q (List.mem_cons_self q gd)
    have hv2 : ∀ r ∈ gd, noBS (r.2.getD []) = true :=
      fun r hr => hv r (List.mem_cons_of_mem q hr)
    rcases List.mem_cons.mp hp with hpq | hpm
    · subst hpq
      exact expandFold_contains_false (expandStep_noAdjBS h hq) hv2
        (expandStep_removes h hq hd)
    · exact ih (expandStep_noAdjBS h hq) hv2 p hpm hd

theorem pstrL_eq : pstr "\\L" = '\\' :: ['L'] := rfl

theorem pstrU_eq : pstr "\\U" = '\\' :: ['U'] := rfl

theorem expandStep_fixed {nm : PyStr} {i : Nat} {g : Option PyStr}
    (hs : noBS nm = true) : expandStep nm i g = nm := by
  simp only [expandStep]
  rw [pstrL_eq, noBS_contains hs]
  simp only [Bool.false_eq_true, if_false]
  rw [pstrU_eq, noBS_contains hs]
  simp only [Bool.false_eq_true, if_false]
  rw [backref_eq_cons]
  exact replaceAll_of_noBS hs

theorem expandFold_fixed {gd : List (Nat × Option PyStr)} {nm : PyStr}
    (hs : noBS nm = true) : expand_replacement nm gd = nm := by
  induction gd with
  | nil => rfl
  | cons p gd ih =>
    rw [expand_replacement_cons, expandStep_fixed hs]
    exact ih

theorem natStr_single {i : Nat} (h1 : 1 ≤ i) (h9 : i ≤ 9) :
    natStr i = [Nat.digitChar i] := by
  interval_cases i <;> rfl

theorem toDigitsCore_head (fuel : Nat) :
    ∀ n acc, n ≠ 0 → n ≤ fuel →
    ∃ j rest, 1 ≤ j ∧ j ≤ 9 ∧
      Nat.toDigitsCore 10 fuel n acc = Nat.digitChar j :: rest := by
  induction fuel with
  | zero => intro n acc hn hl; omega
  | succ fuel ih =>
    intro n acc hn hl
    rw [Nat.toDigitsCore]
    by_cases hq : n / 10 = 0
    · rw [if_pos hq]
      refine ⟨n % 10, acc, ?_, ?_, rfl⟩ <;> omega
    · rw [if_neg hq]
      exact ih (n / 10) _ hq (by omega)

theorem natStr_head {i : Nat} (h : 1 ≤ i) :
    ∃ j rest, 1 ≤ j ∧ j ≤ 9 ∧ natStr i = Nat.digitChar j :: rest := by
  have := toDigitsCore_head (i + 1) i [] (by omega) (by omega)
  simpa [natStr, Nat.repr, Nat.toDigits] using this

theorem containsSub_two_of_cons {a b : Char} {r s : List Char}
    (h : containsSub (a :: b :: r) s = true) : containsSub [a, b] s = true := by
  induction s with
  | nil => simp [containsSub] at h
  | cons c cs ih =>
    rw [containsSub_cons, Bool.or_eq_true] at h ⊢
    rcases h with h | h
    · left
      cases cs with
      | nil =>
        rw [List.isPrefixOf_cons₂] at h
        simp at h
      | cons e es =>
        rw [List.isPrefixOf_cons₂, Bool.and_eq_true] at h ⊢
        refine ⟨h.1, ?_⟩
        rw [List.isPrefixOf_cons₂, Bool.and_eq_true] at h ⊢
        exact ⟨h.2.1, List.isPrefixOf_nil_left⟩
    · exact Or.inr (ih h)

theorem mkGroupDictFrom_mem :
    ∀ (gs : List (Option PyStr)) (k j : Nat), k ≤ j → j < k + gs.length →
    ∃ g, (j, g) ∈ mkGroupDictFrom k gs ∧ g ∈ gs := by
  intro gs
  induction gs with
  | nil => intro k j h1 h2; simp at h2; omega
  | cons g gs ih =>
    intro k j h1 h2
    by_cases hj : j = k
    · subst hj
      exact ⟨g, List.mem_cons_self _ _, List.mem_cons_self _ _⟩
    · have h3 : k + 1 ≤ j := by omega
      have h4 : j < (k + 1) + gs.length := by
        simp only [List.length_cons] at h2
        omega
      obtain ⟨g2, hmem, hval⟩ := ih (k + 1) j h3 h4
      exact ⟨g2, List.mem_cons_of_mem _ hmem, List.mem_cons_of_mem _ hval⟩

theorem mkGroupDictFrom_val_mem :
    ∀ (gs : List (Option PyStr)) (k : Nat) (p : Nat × Option PyStr),
    p ∈ mkGroupDictFrom k gs → p.2 ∈ gs := by
  intro gs
  induction gs with
  | nil => intro k p hp; exact absurd hp (List.not_mem_nil p)
  | cons g gs ih =>
    intro k p hp
    rcases List.mem_cons.mp hp with h | h
    · subst h; exact List.mem_cons_self _ _
    · exact List.mem_cons_of_mem _ (ih (k + 1) p h)

theorem noBS_append {a b : PyStr} (ha : noBS a = true) (hb : noBS b = true) :
    noBS (a ++ b) = true := by
  rw [noBS, List.all_append]
  rw [noBS] at ha hb
  rw [ha, hb]
  rfl

theorem expandStep_backref10 (g1 : PyStr) :
    expandStep (backref 10) 1 (some g1) = g1 ++ ['0'] := by
  simp only [expandStep, Option.getD_some]
  rw [show containsSub (pstr "\\L") (backref 10) = false from rfl]
  simp only [Bool.false_eq_true, if_false]
  rw [show containsSub (pstr "\\U") (backref 10) = false from rfl]
  simp only [Bool.false_eq_true, if_false]
  rw [show backref 10 = ['\\', '1', '0'] from rfl,
    show backref 1 = ['\\', '1'] from rfl]
  rw [replaceAll, if_neg (by simp)]
  rw [show (['\\', '1', '0'] : List Char).length = 3 from rfl]
  rw [replaceAllAux, if_pos (by decide)]
  simp [replaceAllAux]

theorem addgroup_sound {G n : Nat} {rest : List Char} {items : List TItem}
    {r : List Char} (h : addgroup G n rest = .ok (items, r)) :
    ∀ k, TItem.group k ∈ items → k ≤ G := by
  intro k hk
  rw [addgroup] at h
  split at h
  · simp at h
  · rename_i hng
    simp only [Except.ok.injEq, Prod.mk.injEq] at h
    rcases h with ⟨h1, -⟩
    subst h1
    simp only [List.mem_singleton, TItem.group.injEq] at hk
    subst hk
    omega

theorem parseGroupName_sound {G : Nat} {names : List (PyStr × Nat)}
    {s : List Char} {items : List TItem} {r : List Char}
    (h : parseGroupName G names s = .ok (items, r)) :
    ∀ k, TItem.group k ∈ items → k ≤ G := by
  intro k hk
  unfold parseGroupName at h
  repeat' split at h
  all_goals first
    | exact Except.noConfusion h
    | exact addgroup_sound h k hk

theorem parseEscape_sound {G : Nat} {names : List (PyStr × Nat)}
    {s : List Char} {items : List TItem} {r : List Char}
    (h : parseEscape G names s = .ok (items, r)) :
    ∀ k, TItem.group k ∈ items → k ≤ G := by
  intro k hk
  unfold parseEscape at h
  repeat' split at h
  all_goals first
    | exact Except.noConfusion h
    | exact parseGroupName_sound h k hk
    | exact addgroup_sound h k hk
    | (simp only [Except.ok.injEq, Prod.mk.injEq] at h
       rcases h with ⟨h1, -⟩
       subst h1
       simp at hk)

theorem parseTemplateAux_sound {G : Nat} {names : List (PyStr × Nat)} :
    ∀ fuel (s : List Char) (items : List TItem),
    parseTemplateAux G names fuel s = .ok items →
    ∀ k, TItem.group k ∈ items → k ≤ G := by
  intro fuel
  induction fuel with
  | zero =>
    intro s items h k hk
    cases s with
    | nil =>
      simp only [parseTemplateAux, Except.ok.injEq] at h
      subst h
      simp at hk
    | cons c rest => simp [parseTemplateAux] at h
  | succ fuel ih =>
    intro s items h k hk
    cases s with
    | nil =>
      simp only [parseTemplateAux, Except.ok.injEq] at h
      subst h
      simp at hk
    | cons c rest =>
      rw [parseTemplateAux] at h
      split at h
      · split at h
        · simp at h
        · rename_i its rest2 hesc
          split at h
          · simp at h
          · rename_i tail hrec
            simp only [Except.ok.injEq] at h
            subst h
            rcases List.mem_append.mp hk with hm | hm
            · exact parseEscape_sound hesc k hm
            · exact ih rest2 tail hrec k hm
      · split at h
        · simp at h
        · rename_i tail hrec
          simp only [Except.ok.injEq] at h
          subst h
          rcases List.mem_cons.mp hk with hm | hm
          · simp at hm
          · exact ih rest tail hrec k hm

theorem parsedRefs_le {m : ReMatch} {rp : PyStr} :
    ∀ n ∈ parsedRefs m rp, n ≤ m.groups.length := by
  intro n hn
  rw [parsedRefs] at hn
  cases hp : parseTemplate m.groups.length m.names (simplifiedTemplate rp) with
  | error e =>
    rw [hp] at hn
    simp at hn
  | ok items =>
    rw [hp] at hn
    obtain ⟨it, hit, hfn⟩ := List.mem_filterMap.mp hn
    cases it with
    | lit c => simp at hfn
    | group k =>
      simp only [Option.some.injEq] at hfn
      subst hfn
      rw [parseTemplate] at hp
      exact parseTemplateAux_sound _ _ _ hp _ hit

theorem searchFrom_isSome {R : RegexSem} {s : PyStr} :
    ∀ fuel i j, i ≤ j → j < i + fuel → R.candidates s j ≠ [] →
    (searchFrom R s fuel i).isSome = true := by
  intro fuel
  induction fuel with
  | zero => intro i j h1 h2 h3; omega
  | succ fuel ih =>
    intro i j h1 h2 h3
    rw [searchFrom]
    cases hc : R.candidates s i with
    | cons m ms => simp
    | nil =>
      have hij : i ≠ j := by
        intro he
        subst he
        exact h3 hc
      exact ih (i + 1) j (by omega) (by omega) h3

theorem match_filename_falsy {R : RegexSem} {fn : PyStr} {rp : Option PyStr}
    (htr : truthy rp = false) (full : Bool) (p : Nat) :
    match_filename R fn rp full p = match_filename R fn none full p := by
  rw [match_filename, match_filename, htr]
  rfl

theorem match_filename_none_ok (R : RegexSem) (fn : PyStr) (full : Bool) (p : Nat) :
    ∃ om, match_filename R fn none full p = .ok om ∧
      ∀ m, om = some m → m.name_to = none := by
  rw [match_filename]
  cases match_regex_string R fn full with
  | none => exact ⟨none, rfl, by simp⟩
  | some rm =>
    refine ⟨some ⟨fn, none,
      if p ≠ 0 then applyPadding p (mkGroupDict rm.groups) else mkGroupDict rm.groups,
      rm⟩, rfl, ?_⟩
    intro m hm
    simp only [Option.some.injEq] at hm
    subst hm
    rfl

theorem matchEach_falsy {R : RegexSem} {rp : Option PyStr}
    (htr : truthy rp = false) (full : Bool) (p : Nat) :
    ∀ l, matchEach R rp full p l = matchEach R none full p l := by
  intro l
  induction l with
  | nil => rfl
  | cons fn rest ih =>
    rw [matchEach, matchEach, match_filename_falsy htr, ih]

theorem matchEach_none_ok (R : RegexSem) (full : Bool) (p : Nat) :
    ∀ l, ∃ ms, matchEach R none full p l = .ok ms ∧
      ∀ m ∈ ms.filterMap id, m.name_to = none := by
  intro l
  induction l with
  | nil => exact ⟨[], rfl, by simp⟩
  | cons fn rest ih =>
    obtain ⟨om, hom, homt⟩ := match_filename_none_ok R fn full p
    obtain ⟨ms, hms, hmst⟩ := ih
    refine ⟨om :: ms, ?_, ?_⟩
    · rw [matchEach, hom, hms]
    · intro m hm
      rw [List.filterMap_cons] at hm
      cases om with
      | none => exact hmst m hm
      | some m0 =>
        rcases List.mem_cons.mp hm with he | hm2
        · subst he
          exact homt m rfl
        · exact hmst m hm2

theorem match_files_falsy {R : RegexSem} {files : List PyStr} {rp : Option PyStr}
    (htr : truthy rp = false) (full : Bool) (p : Nat) :
    match_files R files rp full p = match_files R files none full p := by
  rw [match_files, match_files, matchEach_falsy htr]

theorem match_files_none_ok (R : RegexSem) (files : List PyStr) (full : Bool) (p : Nat) :
    ∃ ms, match_files R files none full p = .ok ms ∧ ∀ m ∈ ms, m.name_to = none := by
  obtain ⟨ms, hms, hmst⟩ := matchEach_none_ok R full p (sortStrs files)
  exact ⟨ms.filterMap id, by rw [match_files, hms], hmst⟩

theorem mem_dupTargets {ms : List Match} {n : Option PyStr} :
    n ∈ dupTargets ms ↔ 1 < (ms.map (·.name_to)).count n := by
  rw [dupTargets]
  rw [List.mem_dedup, List.mem_filter]
  constructor
  · intro ⟨_, h2⟩
    exact of_decide_eq_true h2
  · intro h
    refine ⟨?_, decide_eq_true h⟩
    exact List.count_pos_iff.mp (by omega)

theorem find_duplicates_error {ms : List Match} (h : dupTargets ms ≠ []) :
    find_duplicates ms = .error (.duplicateTargets (dupTargets ms)) := by
  rw [find_duplicates, if_neg h]

theorem count_two_of_decomp {pre mid post : List Match} {m1 m2 : Match}
    (heq : m1.name_to = m2.name_to) :
    1 < ((pre ++ m1 :: mid ++ m2 :: post).map (·.name_to)).count m1.name_to := by
  simp only [List.map_append, List.map_cons, List.count_append, List.count_cons]
  rw [heq]
  simp
  omega

theorem re_fullmatch_some {R : RegexSem} {s : PyStr} {m : ReMatch}
    (h : re_fullmatch R s = some m) :
    m.start = 0 ∧ m.stop = s.length ∧ (m.stop, m.groups) ∈ R.candidates s 0 := by
  rw [re_fullmatch] at h
  cases hf : (R.candidates s 0).filter (fun c => c.1 == s.length) with
  | nil =>
    rw [hf] at h
    simp at h
  | cons c cs =>
    rw [hf] at h
    simp only [Option.some.injEq] at h
    subst h
    have hc : c ∈ (R.candidates s 0).filter (fun c => c.1 == s.length) := by
      rw [hf]
      exact List.mem_cons_self c cs
    rw [List.mem_filter] at hc
    have hlen : c.1 = s.length := by simpa using hc.2
    exact ⟨rfl, hlen, by simpa using hc.1⟩

theorem re_fullmatch_none {R : RegexSem} {s : PyStr}
    (h : ∀ c ∈ R.candidates s 0, c.1 ≠ s.length) : re_fullmatch R s = none := by
  rw [re_fullmatch]
  have : (R.candidates s 0).filter (fun c => c.1 == s.length) = [] := by
    rw [List.filter_eq_nil_iff]
    intro c hc
    simpa using h c hc
  rw [this]

/-! Claim theorems. -/

/-- C5: expanding the template backslash-L backslash-1 dash backslash-U
backslash-2 against the group mapping 1 to Abc, 2 to abc yields exactly
abc-ABC: for each group in ascending index order the case-directive forms
are replaced (lower-cased, then upper-cased value) before the plain
back-reference for that group is replaced by the raw value. -/
theorem expand_case_directives_example :
    expand_replacement (pstr "\\L\\1-\\U\\2")
      [(1, some (pstr "Abc")), (2, some (pstr "abc"))] = pstr "abc-ABC" := by
  decide

/-- C8: template expansion is a pure function of its two inputs: running
it twice on equal inputs produces identical output strings. -/
theorem expand_replacement_deterministic (t1 t2 : PyStr)
    (g1 g2 : List (Nat × Option PyStr)) (ht : t1 = t2) (hg : g1 = g2) :
    expand_replacement t1 g1 = expand_replacement t2 g2 := by
  rw [ht, hg]

/-- Witness for C8 at a concrete template and mapping. -/
theorem expand_replacement_deterministic_witness :
    expand_replacement (pstr "\\1") [(1, some (pstr "a"))]
      = expand_replacement (pstr "\\1") [(1, some (pstr "a"))] :=
  expand_replacement_deterministic _ _ _ _ rfl rfl

/-- C9: with at least 10 capture groups and the template backslash-10,
expansion substitutes group 1 value followed by the literal character 0
(rather than group 10 value): the plain back-references are replaced
textually in ascending group order, and the replacement for group 1
consumes the prefix of the two-digit reference.  Group values are assumed
backslash-free (captured text without backslashes). -/
theorem expand_two_digit_backref (g1 : PyStr) (rest : List (Option PyStr))
    (hg : noBS g1 = true) (_hlen : 9 ≤ rest.length) :
    expand_replacement (pstr "\\10") (mkGroupDict (some g1 :: rest))
      = g1 ++ ['0'] := by
  rw [show pstr "\\10" = backref 10 from rfl]
  rw [show mkGroupDict (some g1 :: rest)
    = (1, some g1) :: mkGroupDictFrom 2 rest from rfl]
  rw [expand_replacement_cons]
  rw [show expandStep (backref 10) (1, some g1).1 (1, some g1).2
    = expandStep (backref 10) 1 (some g1) from rfl]
  rw [expandStep_backref10]
  exact expandFold_fixed (noBS_append hg (by decide))

/-- Witness for C9: group 1 captured a, groups 2 to 10 captured b; the
expansion of backslash-10 is a0, not the value of group 10. -/
theorem expand_two_digit_backref_witness :
    expand_replacement (pstr "\\10")
      (mkGroupDict (some (pstr "a") :: List.replicate 9 (some (pstr "b"))))
      = pstr "a0" :=
  expand_two_digit_backref (pstr "a") (List.replicate 9 (some (pstr "b")))
    (by decide) (by decide)

/-- C6: renaming requested (testing false) without a replacement pattern
raises the missing-replacement RuntimeError and performs no rename. -/
theorem bulk_rename_missing_replacement (R : RegexSem) (files : List PyStr)
    (full : Bool) (padding : Nat) :
    bulk_rename R files none false full padding
      = (.error .missingReplacement, []) := by
  obtain ⟨ms, hms, -⟩ := match_files_none_ok R files full padding
  rw [bulk_rename, hms]
  rfl

/-- C10: an empty replacement template is falsy in Python, so bulk_rename
treats it exactly like no template: the whole run is identical to the run
with None, in report mode every match has no target name and no duplicate
error can be raised, and in rename mode the missing-replacement error is
raised with no rename performed. -/
theorem bulk_rename_empty_template (R : RegexSem) (files : List PyStr)
    (testing full : Bool) (padding : Nat) :
    bulk_rename R files (some []) testing full padding
      = bulk_rename R files none testing full padding ∧
    (∃ ms, bulk_rename R files (some []) true full padding = (.ok ms, []) ∧
      ∀ m ∈ ms, m.name_to = none) ∧
    bulk_rename R files (some []) false full padding
      = (.error .missingReplacement, []) := by
  have hmf := @match_files_falsy R files (some []) rfl full padding
  obtain ⟨ms, hms, hmst⟩ := match_files_none_ok R files full padding
  refine ⟨?_, ⟨ms, ?_, hmst⟩, ?_⟩
  · rw [bulk_rename, bulk_rename, hmf]
    rfl
  · rw [bulk_rename, hmf, hms]
    rfl
  · rw [bulk_rename, hmf, hms]
    rfl

/-- C7: with full_match true the matcher returns a match only if the
pattern matches the entire filename, anchored at both ends (it returns a
whole-span candidate); if every candidate is a proper substring the result
is no match; with full_match false a candidate anywhere in the filename
makes the search succeed. -/
theorem match_regex_string_anchoring (R : RegexSem) (s : PyStr) :
    (∀ m : ReMatch, match_regex_string R s true = some m →
        m.start = 0 ∧ m.stop = s.length ∧ (m.stop, m.groups) ∈ R.candidates s 0) ∧
    ((∀ c ∈ R.candidates s 0, c.1 ≠ s.length) →
        match_regex_string R s true = none) ∧
    (∀ i, i ≤ s.length → R.candidates s i ≠ [] →
        (match_regex_string R s false).isSome = true) := by
  refine ⟨?_, ?_, ?_⟩
  · intro m hm
    rw [match_regex_string, if_pos rfl] at hm
    exact re_fullmatch_some hm
  · intro h
    rw [match_regex_string, if_pos rfl]
    exact re_fullmatch_none h
  · intro i hi hc
    rw [match_regex_string, if_neg (by simp)]
    rw [re_search]
    exact searchFrom_isSome _ 0 i (Nat.zero_le i) (by omega) hc

/-- Witness for C7: trivialRegex full-matches ab with span 0 to 2;
properSubRegex only matches a proper substring of ab, so fullmatch fails;
the unanchored search on trivialRegex succeeds. -/
theorem match_regex_string_anchoring_witness :
    ((⟨0, 2, [some (pstr "ab")], []⟩ : ReMatch).start = 0 ∧
      (⟨0, 2, [some (pstr "ab")], []⟩ : ReMatch).stop = (pstr "ab").length ∧
      ((⟨0, 2, [some (pstr "ab")], []⟩ : ReMatch).stop,
        (⟨0, 2, [some (pstr "ab")], []⟩ : ReMatch).groups)
        ∈ trivialRegex.candidates (pstr "ab") 0) ∧
    match_regex_string properSubRegex (pstr "ab") true = none ∧
    (match_regex_string trivialRegex (pstr "ab") false).isSome = true := by
  have h1 := (match_regex_string_anchoring trivialRegex (pstr "ab")).1
    ⟨0, 2, [some (pstr "ab")], []⟩ (by decide)
  have h2 := (match_regex_string_anchoring properSubRegex (pstr "ab")).2.1
    (by decide)
  have h3 := (match_regex_string_anchoring trivialRegex (pstr "ab")).2.2
    0 (by decide) (by decide)
  exact ⟨h1, h2, h3⟩

/-- C2 counterexample: the template backslash-q contains no group
back-reference at all (it has no digit and no g character, the only forms
a back-reference can take), so every back-reference in it vacuously refers
to an existing group; yet validation rejects it with the bad-escape error.
Validation success is therefore not equivalent to all back-references
referring to existing groups. -/
theorem validate_bad_escape_counterexample :
    validate_replacement nonPartMatch (pstr "\\q")
      = .error (.reError "bad escape") ∧
    (pstr "\\q").all (fun c => !c.isDigit && c != 'g') = true := by
  decide

/-- C2 amended: validation succeeds only if every group back-reference of
the simplified template (as collected by the template parser) refers to a
group that exists in the pattern; the converse fails for malformed escapes
(see the counterexample).  In particular a back-reference to a group that
exists but did not participate in the match validates, and expansion then
substitutes the empty string for it. -/
theorem validate_replacement_refs_exist (m : ReMatch) (rp : PyStr)
    (_hval : validate_replacement m rp = .ok ()) :
    (∀ n ∈ parsedRefs m rp, n ≤ m.groups.length) ∧
    validate_replacement nonPartMatch (pstr "\\2") = .ok () ∧
    expand_replacement (pstr "\\2") (mkGroupDict nonPartMatch.groups)
      = pstr "" := by
  exact ⟨fun n hn => parsedRefs_le n hn, by decide, by decide⟩

/-- Witness for C2 at the non-participating-group match and the template
backslash-2: the parsed reference 2 exists among the two pattern groups,
validation succeeds, and expansion substitutes the empty string. -/
theorem validate_replacement_refs_exist_witness :
    2 ≤ nonPartMatch.groups.length ∧
    validate_replacement nonPartMatch (pstr "\\2") = .ok () ∧
    expand_replacement (pstr "\\2") (mkGroupDict nonPartMatch.groups)
      = pstr "" := by
  have h := validate_replacement_refs_exist nonPartMatch (pstr "\\2") (by decide)
  exact ⟨h.1 2 (by decide), h.2.1, h.2.2⟩

/-- C3 counterexample: an empty captured group consists (vacuously) of
decimal digits only and has length 0, less than the padding 3, so the
claim demands it be padded to 000; but Python str.isnumeric is false on
the empty string, so the code leaves the group unchanged. -/
theorem padding_empty_group_counterexample :
    applyPadding 3 [(1, some (pstr ""))] = [(1, some (pstr ""))] ∧
    (pstr "").length < 3 ∧
    (pstr "").all Char.isDigit = true ∧
    pstr "" ≠ pstr "000" := by
  decide

/-- C3 amended: for padding greater than 0, a captured group that is
nonempty, consists entirely of decimal digits, and is shorter than the
padding is left-padded with zeros to exactly the padding length; a group
of length at least the padding, or an empty group, or an ASCII group
containing a non-digit, or an absent group, is unchanged (padding keys and
order are preserved); and padding runs before template expansion, so the
computed target name is the expansion over the padded dictionary. -/
theorem applyPadding_spec (p : Nat) (gd : List (Nat × Option PyStr))
    (hp : 0 < p) :
    ((applyPadding p gd).length = gd.length) ∧
    (∀ (k i : Nat) (v : PyStr), gd[k]? = some (i, some v) → v ≠ [] →
        v.all Char.isDigit = true → v.length < p →
        (applyPadding p gd)[k]?
          = some (i, some (List.replicate (p - v.length) '0' ++ v)) ∧
        (List.replicate (p - v.length) '0' ++ v).length = p) ∧
    (∀ (k i : Nat) (v : PyStr), gd[k]? = some (i, some v) → p ≤ v.length →
        (applyPadding p gd)[k]? = some (i, some v)) ∧
    (∀ (k i : Nat) (v : PyStr), gd[k]? = some (i, some v) →
        (v = [] ∨ ((∀ c ∈ v, c.toNat < 128) ∧ ∃ c ∈ v, c.isDigit = false)) →
        (applyPadding p gd)[k]? = some (i, some v)) ∧
    (∀ (k i : Nat), gd[k]? = some (i, none) →
        (applyPadding p gd)[k]? = some (i, none)) ∧
    (∀ (R : RegexSem) (fn : PyStr) (rp : PyStr) (full : Bool) (rm : ReMatch),
        match_regex_string R fn full = some rm → truthy (some rp) = true →
        validate_replacement rm rp = .ok () →
        match_filename R fn (some rp) full p = .ok (some
          ⟨fn, some (expand_replacement rp (applyPadding p (mkGroupDict rm.groups))),
            applyPadding p (mkGroupDict rm.groups), rm⟩)) := by
  refine ⟨by simp [applyPadding], ?_, ?_, ?_, ?_, ?_⟩
  · intro k i v hk hne hdig hlen
    have hnum : pyIsNumeric v = true := by
      rw [pyIsNumeric, hdig]
      simp [hne]
    rw [applyPadding, List.getElem?_map, hk]
    simp only [Option.map_some', hnum, if_true]
    constructor
    · rw [pyZfill, if_pos hlen]
    · simp only [List.length_append, List.length_replicate]
      omega
  · intro k i v hk hlen
    rw [applyPadding, List.getElem?_map, hk]
    simp only [Option.map_some']
    split
    · rw [pyZfill, if_neg (by omega)]
    · rfl
  · intro k i v hk hcase
    have hnum : pyIsNumeric v = false := by
      rcases hcase with he | ⟨-, c, hc, hcd⟩
      · subst he
        rfl
      · rw [pyIsNumeric]
        have : v.all Char.isDigit = false := by
          rw [List.all_eq_false]
          exact ⟨c, hc, by simp [hcd]⟩
        simp [this]
    rw [applyPadding, List.getElem?_map, hk]
    simp only [Option.map_some', hnum]
    rfl
  · intro k i hk
    rw [applyPadding, List.getElem?_map, hk]
    rfl
  · intro R fn rp full rm hm htr hval
    rw [match_filename, hm, htr]
    simp only [Bool.not_true, Bool.false_eq_true, if_false]
    rw [show (some rp).getD [] = rp from rfl, hval]
    rw [if_pos (by omega : p ≠ 0)]

/-- Witness for C3: with padding 3, the numeric group 7 becomes 007, the
non-numeric group abc and the absent group are unchanged, and the computed
name of a matched file expands the template over the padded dictionary. -/
theorem applyPadding_spec_witness :
    (applyPadding 3 wPadDict)[0]? = some (1, some (pstr "007")) ∧
    (applyPadding 3 wPadDict)[1]? = some (2, some (pstr "abc")) ∧
    (applyPadding 3 wPadDict)[2]? = some (3, none) ∧
    match_filename trivialRegex (pstr "7") (some (pstr "x\\1")) false 3
      = .ok (some ⟨pstr "7",
          some (expand_replacement (pstr "x\\1")
            (applyPadding 3 (mkGroupDict [some (pstr "7")]))),
          applyPadding 3 (mkGroupDict [some (pstr "7")]),
          ⟨0, 1, [some (pstr "7")], []⟩⟩) := by
  have h := applyPadding_spec 3 wPadDict (by decide)
  refine ⟨?_, ?_, ?_, ?_⟩
  · exact (h.2.1 0 1 (pstr "7") (by decide) (by decide) (by decide) (by decide)).1
  · exact h.2.2.2.1 1 2 (pstr "abc") (by decide)
      (Or.inr ⟨by decide, ⟨'a', by decide, by decide⟩⟩)
  · exact h.2.2.2.2.1 2 3 (by decide)
  · exact h.2.2.2.2.2 trivialRegex (pstr "7") (pstr "x\\1") false
      ⟨0, 1, [some (pstr "7")], []⟩ (by decide) (by decide) (by decide)

/-- C4 counterexample: the template backslash backslash 2 1 passes
validation (the template parser reads the double backslash as an escaped
literal backslash followed by the literal text 21), but expanding it
against two groups that both captured the empty string yields the string
backslash-1: substituting group 2 glues the leading backslash onto the
digit 1, creating an unresolved back-reference to group 1, a group that
exists in the pattern, after group 1 has already been processed. -/
theorem expand_leftover_backref_counterexample :
    validate_replacement ⟨0, 2, [some [], some []], []⟩ (pstr "\\\\21")
      = .ok () ∧
    expand_replacement (pstr "\\\\21") (mkGroupDict [some [], some []])
      = pstr "\\1" ∧
    containsSub (backref 1) (pstr "\\1") = true ∧
    1 ≤ ([some [], some []] : List (Option PyStr)).length := by
  decide

/-- C4 amended: for a validated template containing no two adjacent
backslashes, expanded against group values that contain no backslash, the
result contains no remaining back-reference to any group of the pattern.
Both added conditions are necessary: the counterexample violates only the
adjacent-backslash condition, and values containing back-reference text
(for example a group that captured the two characters backslash 1) violate
the conclusion as well. -/
theorem expand_no_unresolved_backref (tpl : PyStr) (gs : List (Option PyStr))
    (m : ReMatch) (_hm : m.groups = gs)
    (_hval : validate_replacement m tpl = .ok ())
    (htpl : noAdjBS tpl = true)
    (hv : ∀ g ∈ gs, noBS (g.getD []) = true) :
    ∀ i, 1 ≤ i → i ≤ gs.length →
    containsSub (backref i) (expand_replacement tpl (mkGroupDict gs)) = false := by
  intro i h1 hG
  have hv2 : ∀ p ∈ mkGroupDict gs, noBS (p.2.getD []) = true := by
    intro p hp
    exact hv p.2 (mkGroupDictFrom_val_mem gs 1 p hp)
  by_cases h9 : i ≤ 9
  · obtain ⟨g, hmem, -⟩ := mkGroupDictFrom_mem gs 1 i h1 (by omega)
    have hd : natStr (i, g).1 = [Nat.digitChar i] := natStr_single h1 h9
    have hrem := expandFold_removes htpl hv2 (i, g) hmem hd
    rw [backref_eq_cons, natStr_single h1 h9]
    exact hrem
  · obtain ⟨j, rest, hj1, hj9, hnat⟩ := natStr_head h1
    have hjG : j ≤ gs.length := by omega
    obtain ⟨g, hmem, -⟩ := mkGroupDictFrom_mem gs 1 j hj1 (by omega)
    have hd : natStr (j, g).1 = [Nat.digitChar j] := natStr_single hj1 hj9
    have hrem := expandFold_removes htpl hv2 (j, g) hmem hd
    by_contra hcon
    have hcon2 : containsSub (backref i)
        (expand_replacement tpl (mkGroupDict gs)) = true := by
      cases hcase : containsSub (backref i)
          (expand_replacement tpl (mkGroupDict gs))
      · exact absurd hcase hcon
      · rfl
    rw [backref_eq_cons, hnat] at hcon2
    have htwo := containsSub_two_of_cons hcon2
    rw [htwo] at hrem
    exact absurd hrem (by simp)

/-- Witness for C4: the template backslash-1 over one group that captured
the letter a expands to a, which contains no back-reference. -/
theorem expand_no_unresolved_backref_witness :
    containsSub (backref 1)
      (expand_replacement (pstr "\\1") (mkGroupDict [some (pstr "a")])) = false := by
  have h := expand_no_unresolved_backref (pstr "\\1") [some (pstr "a")]
    ⟨0, 1, [some (pstr "a")], []⟩ rfl (by decide) (by decide)
    (by intro g hg; simp at hg; subst hg; decide)
  exact h 1 (by decide) (by decide)

/-- C1: whenever the match sequence contains two entries for distinct
source files whose computed target names are equal, bulk_rename raises the
duplicate-target RuntimeError before attempting any rename: the result is
that error carrying the duplicated names, zero renames are performed, and
the names carried are exactly the colliding target names (every name
occurring more than once, and nothing else). -/
theorem bulk_rename_duplicate_targets (R : RegexSem) (files : List PyStr)
    (rp : Option PyStr) (testing full : Bool) (padding : Nat)
    (ms pre mid post : List Match) (m1 m2 : Match)
    (htr : truthy rp = true)
    (hmf : match_files R files rp full padding = .ok ms)
    (hdecomp : ms = pre ++ m1 :: mid ++ m2 :: post)
    (_hfrom : m1.name_from ≠ m2.name_from)
    (heq : m1.name_to = m2.name_to) :
    bulk_rename R files rp testing full padding
      = (.error (.duplicateTargets (dupTargets ms)), []) ∧
    m1.name_to ∈ dupTargets ms ∧
    (∀ n, 1 < (ms.map (·.name_to)).count n → n ∈ dupTargets ms) ∧
    (∀ n ∈ dupTargets ms, 1 < (ms.map (·.name_to)).count n) := by
  have hcount : 1 < (ms.map (·.name_to)).count m1.name_to := by
    rw [hdecomp]
    exact count_two_of_decomp heq
  have hmem : m1.name_to ∈ dupTargets ms := mem_dupTargets.mpr hcount
  have hne : dupTargets ms ≠ [] := List.ne_nil_of_mem hmem
  refine ⟨?_, hmem, fun n hn => mem_dupTargets.mpr hn,
    fun n hn => mem_dupTargets.mp hn⟩
  rw [bulk_rename, hmf]
  simp only [htr, if_true]
  rw [find_duplicates_error hne]

/-- Witness for C1: two files a and b whose computed target names are both
x; the batch aborts with the duplicate error naming x and performs no
rename. -/
theorem bulk_rename_duplicate_targets_witness :
    bulk_rename trivialRegex [pstr "a", pstr "b"] (some (pstr "x")) true false 0
      = (.error (.duplicateTargets (dupTargets [wMatchA, wMatchB])), []) ∧
    wMatchA.name_to ∈ dupTargets [wMatchA, wMatchB] ∧
    (∀ n, 1 < (([wMatchA, wMatchB]).map (·.name_to)).count n →
      n ∈ dupTargets [wMatchA, wMatchB]) ∧
    (∀ n ∈ dupTargets [wMatchA, wMatchB],
      1 < (([wMatchA, wMatchB]).map (·.name_to)).count n) := by
  exact bulk_rename_duplicate_targets trivialRegex [pstr "a", pstr "b"]
    (some (pstr "x")) true false 0 [wMatchA, wMatchB] [] [] []
    wMatchA wMatchB (by decide) (by decide) (by decide) (by decide) (by decide)
